import Mathlib

/-
Verification of the TypeLink code-generation core: the Route Table Builder
(`extractPaths` / `buildPathsRecord` in generate-routes.js) and the Schema
Flattener (generate-types.js).  JavaScript strings are modelled as `List Char`
(UTF-16 code units and Unicode scalar values agree on the ASCII fragment all
route/schema names live in); the ASCII-only `Char.toLower`/`Char.toUpper` of
Lean core coincide with JavaScript `toLowerCase`/`toUpperCase` on that
fragment.  Fallible JavaScript operations (property access on `undefined`,
which throws a TypeError) are modelled with `Except JsError`.
-/

deriving instance DecidableEq for Except

namespace TypeLink

/-- JavaScript strings, modelled as lists of characters. -/
abbrev Str := List Char

/-- An uncaught JavaScript exception.  The only kind the modelled code can
raise is a `TypeError` from dereferencing `undefined`. -/
inductive JsError where
  | typeError
deriving DecidableEq

/-- ASCII lowercase letter, the `[a-z]` character class of the source regexes. -/
def isLowerAZ (c : Char) : Bool := 'a' ≤ c && c ≤ 'z'

/-- ASCII uppercase letter, the `[A-Z]` character class of the source regexes. -/
def isUpperAZ (c : Char) : Bool := 'A' ≤ c && c ≤ 'Z'

/-- ASCII letter, the `[a-zA-Z]` character class of the source regexes. -/
def isLetterAZ (c : Char) : Bool := isLowerAZ c || isUpperAZ c

/-- JavaScript `toLowerCase`, restricted to the ASCII fragment. -/
def strLower (s : Str) : Str := s.map Char.toLower

/-- Membership test of a string in a list of strings (models both
`Set.prototype.has` and `Array.prototype.includes` on string arrays). -/
def hasStr : List Str → Str → Bool
  | [], _ => false
  | t :: ts, s => if t = s then true else hasStr ts s

/-- Character membership in a string (models `String.prototype.includes` with
a single-character needle). -/
def hasChar : Str → Char → Bool
  | [], _ => false
  | d :: ds, c => if d = c then true else hasChar ds c

/-- The alternatives of the source regex
`^(list|create|partialUpdate|update|retrieve|destroy)`, in order.  No
alternative is (case-insensitively) a prefix of another, so at most one can
match a given operation name and the alternation order is immaterial. -/
def crudAlternatives : List Str :=
  ["list".data, "create".data, "partialUpdate".data, "update".data,
   "retrieve".data, "destroy".data]

/-- Case-insensitive anchored match of an operation name against the CRUD
alternation: the matching alternative, if any (models
`operationName.match(new RegExp(regex, 'i'))`). -/
def matchCrud (op : Str) : Option Str :=
  crudAlternatives.find? (fun p => (strLower p).isPrefixOf (strLower op))

/-- `operationName.replaceAll(new RegExp(regex, 'gi'), '')`: the anchor `^`
means at most the leading CRUD prefix is removed. -/
def stripCrud (op : Str) : Str :=
  match matchCrud op with
  | some p => op.drop p.length
  | none => op

/-- The canonical operation recorded for a matching key:
`m[1].toLowerCase()`.  The matched slice of the input lowercases to the
lowercased alternative, so we return the latter. -/
def crudCanon (op : Str) : Option Str := (matchCrud op).map strLower

/-- The per-entry operation set `routeOperations` (a JS `Set`, modelled as a
list queried only through membership). -/
def routeOps (ops : List Str) : List Str := ops.filterMap crudCanon

/-- The working route name: fold of
`if (newRouteName.length > routeName.length) routeName = newRouteName`
over the operation names, starting from the empty string.  Strict comparison
means the first longest stripped candidate wins. -/
def baseName (ops : List Str) : Str :=
  ops.foldl (fun rn op => let nn := stripCrud op; if rn.length < nn.length then nn else rn) []

/-- `path.replace(/\/$/, '')`: remove a single trailing slash if present. -/
def stripTrailingSlash (p : Str) : Str :=
  if p.getLast? = some '/' then p.dropLast else p

/-- JavaScript `String.prototype.split('/')`; always returns at least one
(possibly empty) component. -/
def splitSlash : Str → List Str
  | [] => [[]]
  | c :: t =>
    if c = '/' then [] :: splitSlash t
    else
      match splitSlash t with
      | h :: r => (c :: h) :: r
      | [] => [[c]]

/-- `path.replace(/\/$/, '').split('/').at(-1)`, which can in principle be
`undefined` (JS `Array.prototype.at` on an empty array). -/
def lastSeg? (p : Str) : Option Str :=
  (splitSlash (stripTrailingSlash p)).getLast?

/-- The literal array `['partialupdate', 'update', 'retrieve', 'destroy']`
tested against the operation set for the `_detail` suffix. -/
def detailKeys : List Str :=
  ["partialupdate".data, "update".data, "retrieve".data, "destroy".data]

/-- The single-character match condition of the case-transformation regex
`/(([a-z])(?=[A-Z][a-zA-Z])|([A-Z])(?=[A-Z][a-z]))/`: the scanner sits on
`c1`, and the lookahead inspects the next character `c2` and the one after it
(`h3`, absent at the end of the string). -/
def camelCond (c1 c2 : Char) (h3 : Option Char) : Bool :=
  (isLowerAZ c1 && isUpperAZ c2 &&
    (match h3 with | some c3 => isLetterAZ c3 | none => false)) ||
  (isUpperAZ c1 && isUpperAZ c2 &&
    (match h3 with | some c3 => isLowerAZ c3 | none => false))

/-- The global replacement
`routeName.replace(/(([a-z])(?=[A-Z][a-zA-Z])|([A-Z])(?=[A-Z][a-z]))/g, '$1_')`:
each match consumes exactly one character, `$1` reproduces it, and an
underscore is appended after it; the lookaheads consume nothing, so the scan
then continues at the next character. -/
def camelScan : Str → Str
  | [] => []
  | [c] => [c]
  | c1 :: c2 :: rest =>
    if camelCond c1 c2 rest.head? then c1 :: '_' :: camelScan (c2 :: rest)
    else c1 :: camelScan (c2 :: rest)

/-- The full case transformation: the regex replacement followed by
`.toUpperCase()`. -/
def upperSnake (s : Str) : Str := (camelScan s).map Char.toUpper

/-- A Path Entry as consumed by `extractPaths`: the literal path template and
the operation-key names collected from the entry's operation map. -/
abbrev Entry := Str × List Str

/-- Per-entry route-name synthesis, faithful to the loop body of
`extractPaths`.  The `_detail` test dereferences `.at(-1)`, which would throw
a TypeError were it `undefined`; that failure point is kept explicit. -/
def processEntryE (path : Str) (ops : List Str) : Except JsError Str :=
  let rops := routeOps ops
  let rn1 := baseName ops
  let rn2 := if hasStr rops "list".data then rn1 ++ "_list".data else rn1
  match lastSeg? path with
  | none => .error .typeError
  | some seg =>
    let rn3 :=
      if hasChar seg '{' && detailKeys.any (fun d => hasStr rops d) then
        rn2 ++ "_detail".data
      else rn2
    .ok (upperSnake rn3)

/-- The identifier an entry contributes (total projection of
`processEntryE`; `lastSeg?` never returns `none`, see `processEntryE_ok`). -/
def routeId (path : Str) (ops : List Str) : Str :=
  match processEntryE path ops with
  | .ok s => s
  | .error _ => []

/-- JavaScript `Map.prototype.set`: update the value in place if the key is
present (keeping its position), else append the pair. -/
def mapSet : List (Str × Str) → Str → Str → List (Str × Str)
  | [], k, v => [(k, v)]
  | (k', v') :: rest, k, v =>
    if k' = k then (k, v) :: rest else (k', v') :: mapSet rest k v

/-- `String([key, value])`, the string JavaScript's default sort comparator
actually compares for an entry pair: key and value joined by a comma. -/
def pairStr (kv : Str × Str) : Str := kv.1 ++ ',' :: kv.2

/-- Lexicographic `≤` on code-unit sequences (JavaScript string comparison;
UTF-16 code units and Unicode code points agree on the characters at hand). -/
def leStr : Str → Str → Bool
  | [], _ => true
  | _ :: _, [] => false
  | a :: as, b :: bs =>
    if a < b then true
    else if b < a then false
    else leStr as bs

/-- Lexicographic `<` on code-unit sequences. -/
def ltStr : Str → Str → Bool
  | [], [] => false
  | [], _ :: _ => true
  | _ :: _, [] => false
  | a :: as, b :: bs =>
    if a < b then true
    else if b < a then false
    else ltStr as bs

/-- The order `[...paths.entries()].sort()` sorts by: JavaScript's default
comparator stringifies each `[key, value]` pair and compares the results. -/
def pairLe (a b : Str × Str) : Prop := leStr (pairStr a) (pairStr b) = true

instance : DecidableRel pairLe := fun a b =>
  inferInstanceAs (Decidable (leStr (pairStr a) (pairStr b) = true))

/-- `[...paths.entries()].sort()`.  The entries of a `Map` have pairwise
distinct keys, hence pairwise distinct stringifications, so every comparison
sort produces the same list; insertion sort is used as the model. -/
def sortPairs (l : List (Str × Str)) : List (Str × Str) :=
  List.insertionSort pairLe l

/-- The `paths` map after the `forEachChild` loop, before sorting (pure
version; collisions overwrite at insertion time via `mapSet`). -/
def extractPathsRaw (entries : List Entry) : List (Str × Str) :=
  entries.foldl (fun m e => mapSet m (routeId e.1 e.2) e.1) []

/-- The value returned by `extractPaths`: the sorted entry list of the map
(pure version, justified by `extractPathsE_ok`). -/
def extractPaths (entries : List Entry) : List (Str × Str) :=
  sortPairs (extractPathsRaw entries)

/-- `extractPaths` with the TypeError failure point kept explicit. -/
def extractPathsE (entries : List Entry) : Except JsError (List (Str × Str)) :=
  (entries.foldlM
    (fun m e => (processEntryE e.1 e.2).map (fun k => mapSet m k e.1)) []).map
    sortPairs

/-- `key.replaceAll('-', '_')`, applied by `buildPathsRecord` to each key at
emission time. -/
def dashToUnderscore (s : Str) : Str := s.map (fun c => if c = '-' then '_' else c)

/-- One output line of `buildPathsRecord`: two-space indent, the
dash-sanitized key, and the single-quoted path. -/
def renderLine (kv : Str × Str) : Str :=
  "  ".data ++ dashToUnderscore kv.1 ++ ": '".data ++ kv.2 ++ "',".data

/-- `buildPathsRecord`: header line, one line per map entry in map order,
footer, joined with newlines. -/
def buildPathsRecord (m : List (Str × Str)) (recordName : Str) : Str :=
  List.intercalate ['\n']
    (("export const ".data ++ recordName ++ " = \x7b".data) ::
      (m.map renderLine ++ ["\x7d as const;".data]))

/-- The (identifier, path) pairs of the emitted route table, in emitted
order: the sorted map entries with the emission-time dash replacement applied
to the keys (this is exactly the data `renderLine` prints per line). -/
def emittedPairs (entries : List Entry) : List (Str × Str) :=
  (extractPaths entries).map (fun kv => (dashToUnderscore kv.1, kv.2))

/- ### Schema Flattener (generate-types.js) -/

/-- `const builtinNames = ['Object'];` -/
def builtinNames : List Str := ["Object".data]

/-- The output declaration name of a Schema Entry:
`builtinNames.includes(name) ? name + '_' : name`. -/
def emitName (n : Str) : Str := if hasStr builtinNames n then n ++ ['_'] else n

/-- ASCII whitespace removed by `String.prototype.trim`. -/
def isWS (c : Char) : Bool := c = ' ' || c = '\n' || c = '\t' || c = '\r'

/-- JavaScript `String.prototype.trim` (on the ASCII fragment). -/
def trimStr (s : Str) : Str :=
  ((s.dropWhile isWS).reverse.dropWhile isWS).reverse

/-- The `\w` character class of the rewrite regex. -/
def isWordChar (c : Char) : Bool :=
  isLowerAZ c || isUpperAZ c || ('0' ≤ c && c ≤ '9') || c = '_'

/-- The literal opening of the rewrite regex
`/components\["schemas"]\["(\w+)"]/`: everything before the captured name. -/
def patOpen : Str := "components[\"schemas\"][\"".data

/-- The literal closing of the rewrite regex: the `"]` after the captured
name. -/
def patClose : Str := ['\"', ']']

/-- The replacement applied to a captured schema name:
`builtinNames.includes(name) ? name + '_' : name`. -/
def rewriteTarget (w : Str) : Str := if hasStr builtinNames w then w ++ ['_'] else w

/-- Whether the rewrite regex `/components\["schemas"]\["(\w+)"]/` matches at
the start of `l`: the literal opening, then a non-empty greedy run of word
characters (which cannot back off into the closing `"` since `"` is not a
word character), then the literal closing. -/
def refMatches (l : Str) : Bool :=
  patOpen.isPrefixOf l && !((l.drop patOpen.length).takeWhile isWordChar).isEmpty &&
    patClose.isPrefixOf
      ((l.drop patOpen.length).drop ((l.drop patOpen.length).takeWhile isWordChar).length)

/-- The total length of the regex match at the start of `l` (opening, word
run, closing). -/
def refMatchLen (l : Str) : Nat :=
  patOpen.length + ((l.drop patOpen.length).takeWhile isWordChar).length + patClose.length

/-- Fuelled scan implementing
`replaceAll(/components\["schemas"]\["(\w+)"]/g, ...)`: at each position,
either the whole pattern matches and the scan emits the replaced capture and
resumes after the match, or the scan emits one character and advances.  The
fuel only bounds the number of steps; each step consumes at least one
character, so `fuel = length` is always enough (`rewriteGo_congr`). -/
def rewriteGo : Nat → Str → Str
  | 0, l => l
  | _ + 1, [] => []
  | fuel + 1, c :: t =>
    if refMatches (c :: t) then
      rewriteTarget (((c :: t).drop patOpen.length).takeWhile isWordChar) ++
        rewriteGo fuel ((c :: t).drop (refMatchLen (c :: t)))
    else
      c :: rewriteGo fuel t

/-- The cross-reference rewrite applied to every copied shape. -/
def rewriteRefs (s : Str) : Str := rewriteGo s.length s

/-- A shape text decomposed around its cross-references: for each listed
reference, the literal chunk before it and the captured schema name; then a
final literal tail.  `assembleRefs [(l1, X1), ..., (ln, Xn)] t` is the text
`l1 ++ components["schemas"]["X1"] ++ ... ++ ln ++ components["schemas"]["Xn"] ++ t`. -/
def assembleRefs : List (Str × Str) → Str → Str
  | [], tail => tail
  | (lit, x) :: rest, tail =>
    lit ++ (patOpen ++ (x ++ (patClose ++ assembleRefs rest tail)))

/-- The same text after the rewrite: each listed reference replaced by its
(possibly underscore-suffixed) target declaration name, the literal chunks
kept, and the tail itself rewritten. -/
def rewrittenRefs : List (Str × Str) → Str → Str
  | [], tail => rewriteRefs tail
  | (lit, x) :: rest, tail => lit ++ (rewriteTarget x ++ rewrittenRefs rest tail)

/-- The decomposition lists exactly the regex matches: every captured name is
a non-empty run of word characters, and no match of the rewrite regex begins
at any position inside a literal chunk (the scan consumes each listed
reference whole, so positions inside a reference are never visited). -/
def goodSegs : List (Str × Str) → Str → Bool
  | [], _ => true
  | (lit, x) :: rest, tail =>
    x.all isWordChar && !x.isEmpty &&
      (List.range lit.length).all (fun p =>
        !patOpen.isPrefixOf
          ((lit ++ (patOpen ++ (x ++ (patClose ++ assembleRefs rest tail)))).drop p)) &&
      goodSegs rest tail

/-- A Schema Entry as read from the `schemas` property: its name, whether its
type node is a `TypeLiteral`, its member full-texts (for the literal case)
and its type text (for the alias case). -/
structure SchemaProp where
  name : Str
  isTypeLiteral : Bool
  members : List Str
  typeText : Str
deriving DecidableEq

/-- An emitted top-level declaration in the schemas output. -/
inductive SchemaDecl where
  | interfaceDecl (name : Str) (members : List Str)
  | typeAlias (name : Str) (type : Str)
deriving DecidableEq

/-- The `schemas` member of the `components` interface, when present. -/
structure ComponentsShape where
  schemas : Option (List SchemaProp)
deriving DecidableEq

/-- The parsed Declaration Unit, as far as the Flattener inspects it: the
`components` interface, when present. -/
structure DeclUnit where
  components : Option ComponentsShape
deriving DecidableEq

/-- The declaration emitted for one Schema Entry: a `TypeLiteral` becomes an
interface whose members are trimmed and reference-rewritten; anything else
becomes a type alias with the reference-rewritten type text. -/
def emitDecl (p : SchemaProp) : SchemaDecl :=
  if p.isTypeLiteral then
    .interfaceDecl (emitName p.name) (p.members.map (fun m => rewriteRefs (trimStr m)))
  else
    .typeAlias (emitName p.name) (rewriteRefs p.typeText)

/-- The Schema Flattener's emission pass.
`routeTypesFile.getInterface('components')` yields `undefined` when the
interface is absent, so the immediate `.getProperty('schemas')` throws a
TypeError; likewise `.getTypeNode()` on an absent `schemas` property.  Both
unhandled exceptions are modelled as `Except.error`. -/
def generateTypes (u : DeclUnit) : Except JsError (List SchemaDecl) :=
  match u.components with
  | none => .error .typeError
  | some c =>
    match c.schemas with
    | none => .error .typeError
    | some props => .ok (props.map emitDecl)

/- ### Definitions following the spec's words (for refinement comparisons) -/

/-- Forward scan used by `specBoundaryAt`: the remainder starts with at least
one more uppercase letter and the uppercase run is followed by a lowercase
letter. -/
def seekLower : Str → Bool
  | [] => false
  | c :: rest => if isLowerAZ c then true else isUpperAZ c && seekLower rest

/-- Follows the spec's words (§4.2 step 5), not the source: insert an
underscore "before an uppercase letter that is followed by a lowercase letter
and preceded by a lowercase letter, OR before a run of uppercase letters that
ends right before a capitalized word".  A run is taken to begin where the
previous character is not uppercase, and to end right before a capitalized
word when its final uppercase letters are followed by a lowercase letter. -/
def specBoundaryAt (prev : Option Char) (c : Char) (rest : Str) : Bool :=
  (isUpperAZ c &&
    (match prev with | some p => isLowerAZ p | none => false) &&
    (match rest.head? with | some n => isLowerAZ n | none => false)) ||
  (isUpperAZ c &&
    (match prev with | some p => !isUpperAZ p | none => true) &&
    (match rest with | d :: ds => isUpperAZ d && seekLower ds | [] => false))

/-- Follows the spec's words, not the source: underscore insertion at every
spec-rule boundary. -/
def specInsert (prev : Option Char) : Str → Str
  | [] => []
  | c :: rest =>
    (if specBoundaryAt prev c rest then ['_'] else []) ++ c :: specInsert (some c) rest

/-- Follows the spec's words, not the source: the claimed case
transformation (boundary-rule insertion, then uppercase). -/
def specSnake (s : Str) : Str := (specInsert none s).map Char.toUpper

/-- Follows the spec's words (§3 "Route Entry" / claim C3), not the source:
collisions are resolved by "last-sorted-wins applied after the result map is
sorted" — all produced (identifier, path) pairs are sorted first, and then a
later pair overwrites an earlier one with the same identifier. -/
def specLastSortedWins (entries : List Entry) : List (Str × Str) :=
  (sortPairs (entries.map (fun e => (routeId e.1 e.2, e.1)))).foldl
    (fun m kv => mapSet m kv.1 kv.2) []

/-- The boundary-rule reformulation of the implemented case transformation
(used by the amended C6): insert an underscore before an uppercase letter
that is preceded by a lowercase letter and followed by another ASCII letter,
or before an uppercase letter that is preceded by an uppercase letter and
followed by a lowercase letter; then uppercase everything. -/
def boundaryAt (prev : Option Char) (c : Char) (nxt : Option Char) : Bool :=
  isUpperAZ c &&
    (match prev, nxt with
     | some p, some n => (isLowerAZ p && isLetterAZ n) || (isUpperAZ p && isLowerAZ n)
     | _, _ => false)

/-- Underscore insertion before every `boundaryAt` position. -/
def insertBefore (prev : Option Char) : Str → Str
  | [] => []
  | c :: rest =>
    (if boundaryAt prev c rest.head? then ['_'] else []) ++ c :: insertBefore (some c) rest

/-- The boundary-rule form of the case transformation. -/
def boundarySnake (s : Str) : Str := (insertBefore none s).map Char.toUpper

/-- Association lookup in a (key, value) list, models `Map.prototype.get`. -/
def assocFind (k : Str) : List (Str × Str) → Option Str
  | [] => none
  | (k', v) :: t => if k' = k then some v else assocFind k t

/-- The Path Entries contributing a given identifier, in source order. -/
def entriesFor (k : Str) (entries : List Entry) : List Entry :=
  entries.filter fun e => decide (routeId e.1 e.2 = k)

/-- The first longest element of a list of strings (empty for an empty
list): the raw-key fallback of the working-name fold. -/
def longestOf (ops : List Str) : Str :=
  ops.foldl (fun rn op => if rn.length < op.length then op else rn) []

/- ### Helper lemmas: the `_detail` segment access never sees `undefined` -/

theorem splitSlash_ne_nil (p : Str) : splitSlash p ≠ [] := by
  induction p with
  | nil => simp [splitSlash]
  | cons c t ih =>
    simp only [splitSlash]
    by_cases hc : c = '/'
    · simp [hc]
    · simp only [hc, if_false]
      cases h : splitSlash t with
      | nil => exact absurd h ih
      | cons a b => simp

theorem lastSeg?_eq_some (p : Str) : ∃ seg, lastSeg? p = some seg := by
  unfold lastSeg?
  exact Option.isSome_iff_exists.mp
    (List.getLast?_isSome.mpr (splitSlash_ne_nil (stripTrailingSlash p)))

theorem processEntryE_ok (path : Str) (ops : List Str) :
    processEntryE path ops = .ok (routeId path ops) := by
  rcases lastSeg?_eq_some path with ⟨seg, hs⟩
  unfold routeId processEntryE
  rw [hs]

/- ### Helper lemmas: the case-transformation scan in boundary-rule form -/

theorem camelScan_cons (l : Str) :
    ∀ c, camelScan (c :: l) = c :: insertBefore (some c) l := by
  induction l with
  | nil => intro c; rfl
  | cons d rest ih =>
    intro c
    have hcond : camelCond c d rest.head? = boundaryAt (some c) d rest.head? := by
      unfold camelCond boundaryAt
      cases rest.head? with
      | none =>
        cases hl : isLowerAZ c <;> cases hu : isUpperAZ c <;>
          cases h2 : isUpperAZ d <;> simp [hl, hu, h2]
      | some n =>
        cases hl : isLowerAZ c <;> cases hu : isUpperAZ c <;>
          cases h2 : isUpperAZ d <;> cases h3 : isLetterAZ n <;>
          cases h4 : isLowerAZ n <;> simp [hl, hu, h2, h3, h4]
    simp only [camelScan, insertBefore, ih d, hcond]
    by_cases hb : boundaryAt (some c) d rest.head? = true
    · simp [hb]
    · rw [Bool.not_eq_true] at hb
      simp [hb]

/- ### Helper lemmas: lexicographic comparison of stringified entry pairs -/

theorem leStr_total (a : Str) : ∀ b, leStr a b = true ∨ leStr b a = true := by
  induction a with
  | nil => intro b; left; rfl
  | cons x xs ih =>
    intro b
    cases b with
    | nil => right; rfl
    | cons y ys =>
      simp only [leStr]
      rcases lt_trichotomy x y with h | h | h
      · left; rw [if_pos h]
      · subst h
        simp only [lt_self_iff_false, if_false]
        exact ih ys
      · right; rw [if_pos h]

theorem leStr_trans (a : Str) :
    ∀ b c, leStr a b = true → leStr b c = true → leStr a c = true := by
  induction a with
  | nil => intros; rfl
  | cons x xs ih =>
    intro b c hab hbc
    cases b with
    | nil => simp [leStr] at hab
    | cons y ys =>
      cases c with
      | nil => simp [leStr] at hbc
      | cons z zs =>
        simp only [leStr] at hab hbc ⊢
        rcases lt_trichotomy x y with h1 | h1 | h1
        · rcases lt_trichotomy y z with h2 | h2 | h2
          · rw [if_pos (lt_trans h1 h2)]
          · subst h2; rw [if_pos h1]
          · rw [if_neg (asymm h2), if_pos h2] at hbc
            exact absurd hbc (by simp)
        · subst h1
          simp only [lt_self_iff_false, if_false] at hab
          rcases lt_trichotomy x z with h2 | h2 | h2
          · rw [if_pos h2]
          · subst h2
            simp only [lt_self_iff_false, if_false] at hbc ⊢
            exact ih ys zs hab hbc
          · rw [if_neg (asymm h2), if_pos h2] at hbc
            exact absurd hbc (by simp)
        · rw [if_neg (asymm h1), if_pos h1] at hab
          exact absurd hab (by simp)

instance : IsTotal (Str × Str) pairLe :=
  ⟨fun a b => leStr_total (pairStr a) (pairStr b)⟩

instance : IsTrans (Str × Str) pairLe :=
  ⟨fun a b c hab hbc => leStr_trans (pairStr a) (pairStr b) (pairStr c) hab hbc⟩

theorem sortPairs_perm (l : List (Str × Str)) : (sortPairs l).Perm l :=
  List.perm_insertionSort pairLe l

theorem sortPairs_sorted (l : List (Str × Str)) : List.Sorted pairLe (sortPairs l) :=
  List.sorted_insertionSort pairLe l

/-- Key comparison recovered from comparison of the stringified pairs: when
both keys only contain characters above `','` and differ, `pairLe` order
implies strict key order. -/
theorem leStr_pair_keyLt {v1 v2 : Str} (k1 : Str) :
    ∀ k2, leStr (k1 ++ ',' :: v1) (k2 ++ ',' :: v2) = true → k1 ≠ k2 →
      (∀ c ∈ k1, ',' < c) → (∀ c ∈ k2, ',' < c) → ltStr k1 k2 = true := by
  induction k1 with
  | nil =>
    intro k2 h hne h1 h2
    cases k2 with
    | nil => exact absurd rfl hne
    | cons b bs => rfl
  | cons a as ih =>
    intro k2 h hne h1 h2
    cases k2 with
    | nil =>
      have ha : ',' < a := h1 a (List.mem_cons_self a as)
      simp only [List.cons_append, List.nil_append, leStr] at h
      rw [if_neg (asymm ha), if_pos ha] at h
      exact absurd h (by simp)
    | cons b bs =>
      simp only [List.cons_append, leStr] at h
      simp only [ltStr]
      rcases lt_trichotomy a b with hab | hab | hab
      · rw [if_pos hab]
      · subst hab
        simp only [lt_self_iff_false, if_false] at h ⊢
        exact ih bs h (fun hh => hne (by rw [hh]))
          (fun c hc => h1 c (List.mem_cons_of_mem _ hc))
          (fun c hc => h2 c (List.mem_cons_of_mem _ hc))
      · rw [if_neg (asymm hab), if_pos hab] at h
        exact absurd h (by simp)

/- ### Helper lemmas: the JavaScript Map modelled as an association list -/

theorem assocFind_mapSet_self (m : List (Str × Str)) (k v : Str) :
    assocFind k (mapSet m k v) = some v := by
  induction m with
  | nil => simp [mapSet, assocFind]
  | cons p rest ih =>
    obtain ⟨k', v'⟩ := p
    simp only [mapSet]
    by_cases h : k' = k
    · simp [h, assocFind]
    · simp [h, assocFind, ih]

theorem assocFind_mapSet_ne (m : List (Str × Str)) (k v k' : Str) (h : k' ≠ k) :
    assocFind k' (mapSet m k v) = assocFind k' m := by
  have hne : ¬(k = k') := fun hh => h hh.symm
  induction m with
  | nil =>
    simp only [mapSet, assocFind]
    rw [if_neg hne]
  | cons p rest ih =>
    obtain ⟨k'', v''⟩ := p
    simp only [mapSet]
    split_ifs with hk
    · subst hk
      simp only [assocFind]
      rw [if_neg hne, if_neg hne]
    · simp only [assocFind, ih]

theorem mem_keys_mapSet (m : List (Str × Str)) (k v a : Str) :
    a ∈ (mapSet m k v).map Prod.fst ↔ a ∈ m.map Prod.fst ∨ a = k := by
  induction m with
  | nil => simp [mapSet]
  | cons p rest ih =>
    obtain ⟨k', v'⟩ := p
    simp only [mapSet]
    split_ifs with h
    · subst h
      simp only [List.map_cons, List.mem_cons]
      tauto
    · simp only [List.map_cons, List.mem_cons, ih]
      tauto

theorem nodup_keys_mapSet (m : List (Str × Str)) (k v : Str)
    (h : (m.map Prod.fst).Nodup) : ((mapSet m k v).map Prod.fst).Nodup := by
  induction m with
  | nil => simp [mapSet]
  | cons p rest ih =>
    obtain ⟨k', v'⟩ := p
    simp only [List.map_cons, List.nodup_cons] at h
    simp only [mapSet]
    split_ifs with hk
    · subst hk
      simp only [List.map_cons, List.nodup_cons]
      exact h
    · simp only [List.map_cons, List.nodup_cons]
      refine ⟨fun hmem => ?_, ih h.2⟩
      rcases (mem_keys_mapSet rest k v k').mp hmem with hm | hm
      · exact h.1 hm
      · exact hk hm

theorem length_mapSet_of_not_mem (m : List (Str × Str)) (k v : Str)
    (h : k ∉ m.map Prod.fst) : (mapSet m k v).length = m.length + 1 := by
  induction m with
  | nil => simp [mapSet]
  | cons p rest ih =>
    obtain ⟨k', v'⟩ := p
    simp only [List.map_cons, List.mem_cons] at h
    push_neg at h
    simp only [mapSet]
    split_ifs with hc
    · exact absurd hc.symm h.1
    · simp only [List.length_cons, ih h.2]

theorem mem_mapSet (m : List (Str × Str)) (k v : Str) (x : Str × Str)
    (h : x ∈ mapSet m k v) : x ∈ m ∨ x = (k, v) := by
  induction m with
  | nil =>
    simp only [mapSet, List.mem_singleton] at h
    exact Or.inr h
  | cons p rest ih =>
    obtain ⟨k', v'⟩ := p
    simp only [mapSet] at h
    split_ifs at h with hk
    · rcases List.mem_cons.mp h with h | h
      · exact Or.inr h
      · exact Or.inl (List.mem_cons_of_mem _ h)
    · rcases List.mem_cons.mp h with h | h
      · exact Or.inl (h ▸ List.mem_cons_self _ _)
      · rcases ih h with h | h
        · exact Or.inl (List.mem_cons_of_mem _ h)
        · exact Or.inr h

theorem assocFind_eq_some_of_mem (m : List (Str × Str)) (k v : Str)
    (hnd : (m.map Prod.fst).Nodup) (h : (k, v) ∈ m) : assocFind k m = some v := by
  induction m with
  | nil => simp at h
  | cons p rest ih =>
    obtain ⟨k', v'⟩ := p
    simp only [List.map_cons, List.nodup_cons] at hnd
    rcases List.mem_cons.mp h with h | h
    · obtain ⟨h1, h2⟩ := Prod.ext_iff.mp h
      simp only at h1 h2
      subst h1
      subst h2
      simp [assocFind]
    · have hk : k' ≠ k := by
        intro hh
        subst hh
        exact hnd.1 (List.mem_map.mpr ⟨(k', v), h, rfl⟩)
      simp only [assocFind]
      rw [if_neg hk]
      exact ih hnd.2 h

theorem mem_of_assocFind_eq_some (m : List (Str × Str)) (k v : Str)
    (h : assocFind k m = some v) : (k, v) ∈ m := by
  induction m with
  | nil => simp [assocFind] at h
  | cons p rest ih =>
    obtain ⟨k', v'⟩ := p
    simp only [assocFind] at h
    split_ifs at h with hk
    · obtain rfl : v' = v := Option.some.injEq .. ▸ h
      subst hk
      exact List.mem_cons_self _ _
    · exact List.mem_cons_of_mem _ (ih h)

theorem assocFind_eq_none_iff (m : List (Str × Str)) (k : Str) :
    assocFind k m = none ↔ k ∉ m.map Prod.fst := by
  induction m with
  | nil => simp [assocFind]
  | cons p rest ih =>
    obtain ⟨k', v'⟩ := p
    simp only [assocFind, List.map_cons, List.mem_cons]
    split_ifs with hk
    · subst hk
      simp
    · rw [ih]
      constructor
      · intro h
        push_neg
        exact ⟨fun hh => hk hh.symm, h⟩
      · intro h
        push_neg at h
        exact h.2

theorem assocFind_perm (m m' : List (Str × Str)) (hp : m.Perm m')
    (hnd : (m.map Prod.fst).Nodup) (k : Str) : assocFind k m = assocFind k m' := by
  have hnd' : (m'.map Prod.fst).Nodup := (hp.map Prod.fst).nodup hnd
  cases h : assocFind k m with
  | some v =>
    exact (assocFind_eq_some_of_mem m' k v hnd'
      (hp.subset (mem_of_assocFind_eq_some m k v h))).symm
  | none =>
    have : k ∉ m'.map Prod.fst := by
      intro hh
      exact ((assocFind_eq_none_iff m k).mp h) ((hp.map Prod.fst).mem_iff.mpr hh)
    exact ((assocFind_eq_none_iff m' k).mpr this).symm

/- ### Helper lemmas: the insertion loop of `extractPaths` -/

theorem nodup_keys_foldl (entries : List Entry) :
    ∀ m : List (Str × Str), (m.map Prod.fst).Nodup →
      (((entries.foldl (fun m e => mapSet m (routeId e.1 e.2) e.1) m)).map Prod.fst).Nodup := by
  induction entries with
  | nil => intro m h; exact h
  | cons e rest ih =>
    intro m h
    exact ih _ (nodup_keys_mapSet m (routeId e.1 e.2) e.1 h)

theorem nodup_keys_extractPathsRaw (entries : List Entry) :
    ((extractPathsRaw entries).map Prod.fst).Nodup :=
  nodup_keys_foldl entries [] (by simp)

theorem mem_foldl_mapSet (entries : List Entry) :
    ∀ (m : List (Str × Str)) (x : Str × Str),
      x ∈ entries.foldl (fun m e => mapSet m (routeId e.1 e.2) e.1) m →
      x ∈ m ∨ ∃ e ∈ entries, x = (routeId e.1 e.2, e.1) := by
  induction entries with
  | nil => intro m x h; exact Or.inl h
  | cons e rest ih =>
    intro m x h
    rcases ih _ x h with h1 | h1
    · rcases mem_mapSet m (routeId e.1 e.2) e.1 x h1 with h2 | h2
      · exact Or.inl h2
      · exact Or.inr ⟨e, List.mem_cons_self _ _, h2⟩
    · obtain ⟨e', he', hx⟩ := h1
      exact Or.inr ⟨e', List.mem_cons_of_mem _ he', hx⟩

theorem entriesFor_cons (k : Str) (e : Entry) (entries : List Entry) :
    entriesFor k (e :: entries) =
      if routeId e.1 e.2 = k then e :: entriesFor k entries
      else entriesFor k entries := by
  simp only [entriesFor, List.filter_cons]
  by_cases h : routeId e.1 e.2 = k
  · simp [h]
  · simp [h]

theorem getLast?_cons_of_ne_nil {α : Type} (a : α) {l : List α} (h : l ≠ []) :
    (a :: l).getLast? = l.getLast? := by
  cases l with
  | nil => exact absurd rfl h
  | cons b t => exact List.getLast?_cons_cons

theorem assocFind_foldl (k : Str) (entries : List Entry) :
    ∀ m : List (Str × Str),
      assocFind k (entries.foldl (fun m e => mapSet m (routeId e.1 e.2) e.1) m)
        = ((entriesFor k entries).getLast?.map Prod.fst).or (assocFind k m) := by
  induction entries with
  | nil => intro m; simp [entriesFor]
  | cons e rest ih =>
    intro m
    simp only [List.foldl_cons, ih]
    cases hre : (entriesFor k rest).getLast? with
    | some e' =>
      have hne : entriesFor k rest ≠ [] := by
        intro hh
        rw [hh] at hre
        simp at hre
      have hcons : (entriesFor k (e :: rest)).getLast? = some e' := by
        rw [entriesFor_cons]
        split_ifs with hid
        · rw [getLast?_cons_of_ne_nil e hne]
          exact hre
        · exact hre
      rw [hcons]
      simp [Option.or]
    | none =>
      have hnil : entriesFor k rest = [] := by
        cases hl : entriesFor k rest with
        | nil => rfl
        | cons a b =>
          rw [hl] at hre
          have hsome : (a :: b).getLast?.isSome = true :=
            List.getLast?_isSome.mpr (by simp)
          rw [hre] at hsome
          simp at hsome
      rw [entriesFor_cons]
      split_ifs with hid
      · rw [hnil, hid, assocFind_mapSet_self]
        simp [Option.or]
      · rw [hnil]
        rw [assocFind_mapSet_ne m (routeId e.1 e.2) e.1 k (fun hh => hid hh.symm)]
        simp [Option.or]

theorem length_foldl_fresh (entries : List Entry) :
    ∀ m : List (Str × Str),
      (∀ e ∈ entries, routeId e.1 e.2 ∉ m.map Prod.fst) →
      List.Pairwise (fun e1 e2 : Entry => routeId e1.1 e1.2 ≠ routeId e2.1 e2.2) entries →
      (entries.foldl (fun m e => mapSet m (routeId e.1 e.2) e.1) m).length
        = m.length + entries.length := by
  induction entries with
  | nil => intro m _ _; simp
  | cons e rest ih =>
    intro m hfresh hpw
    rcases List.pairwise_cons.mp hpw with ⟨hhead, hrest⟩
    have hlen := length_mapSet_of_not_mem m (routeId e.1 e.2) e.1
      (hfresh e (List.mem_cons_self _ _))
    have hfresh' : ∀ e' ∈ rest,
        routeId e'.1 e'.2 ∉ (mapSet m (routeId e.1 e.2) e.1).map Prod.fst := by
      intro e' he' hmem
      rcases (mem_keys_mapSet m (routeId e.1 e.2) e.1 _).mp hmem with hm | hm
      · exact hfresh e' (List.mem_cons_of_mem _ he') hm
      · exact hhead e' he' hm.symm
    simp only [List.foldl_cons]
    rw [ih _ hfresh' hrest, hlen, List.length_cons]
    omega

/- ### Helper lemmas: `extractPaths` never throws -/

theorem foldlM_entries_ok (entries : List Entry) :
    ∀ m : List (Str × Str),
      entries.foldlM
          (fun m e => (processEntryE e.1 e.2).map (fun k => mapSet m k e.1)) m
        = Except.ok (entries.foldl (fun m e => mapSet m (routeId e.1 e.2) e.1) m) := by
  induction entries with
  | nil => intro m; rfl
  | cons e rest ih =>
    intro m
    rw [List.foldlM_cons, processEntryE_ok e.1 e.2]
    exact ih (mapSet m (routeId e.1 e.2) e.1)

theorem extractPathsE_ok (entries : List Entry) :
    extractPathsE entries = .ok (extractPaths entries) := by
  unfold extractPathsE extractPaths extractPathsRaw
  rw [foldlM_entries_ok entries []]
  rfl

/- ### Helper lemmas: the longest-candidate fold -/

theorem foldl_longest_mem (ops : List Str) :
    ∀ acc, ops.foldl (fun rn op => if rn.length < op.length then op else rn) acc = acc ∨
      ops.foldl (fun rn op => if rn.length < op.length then op else rn) acc ∈ ops := by
  induction ops with
  | nil => intro acc; exact Or.inl rfl
  | cons op rest ih =>
    intro acc
    rw [List.foldl_cons]
    rcases ih (if acc.length < op.length then op else acc) with h | h
    · rw [h]
      split_ifs with hc
      · exact Or.inr (List.mem_cons_self _ _)
      · exact Or.inl rfl
    · exact Or.inr (List.mem_cons_of_mem _ h)

theorem foldl_longest_ge_acc (ops : List Str) :
    ∀ acc : Str,
      acc.length ≤ (ops.foldl (fun rn op => if rn.length < op.length then op else rn) acc).length := by
  induction ops with
  | nil => intro acc; exact le_refl _
  | cons op rest ih =>
    intro acc
    rw [List.foldl_cons]
    refine le_trans ?_ (ih _)
    split_ifs with hc
    · exact le_of_lt hc
    · exact le_refl _

theorem foldl_longest_ge_mem (ops : List Str) :
    ∀ (acc op : Str), op ∈ ops →
      op.length ≤ (ops.foldl (fun rn op => if rn.length < op.length then op else rn) acc).length := by
  induction ops with
  | nil => intro acc op h; simp at h
  | cons op' rest ih =>
    intro acc op h
    rw [List.foldl_cons]
    rcases List.mem_cons.mp h with h | h
    · subst h
      refine le_trans ?_ (foldl_longest_ge_acc rest _)
      split_ifs with hc
      · exact le_refl _
      · exact le_of_not_lt hc
    · exact ih _ op h

theorem longestOf_mem (ops : List Str) (h : ops ≠ []) : longestOf ops ∈ ops := by
  rcases foldl_longest_mem ops [] with h1 | h1
  · cases ops with
    | nil => exact absurd rfl h
    | cons op rest =>
      unfold longestOf
      rw [h1]
      rw [List.foldl_cons] at h1
      by_cases hop : ([] : Str).length < op.length
      · rw [if_pos hop] at h1
        have hge := foldl_longest_ge_acc rest op
        rw [h1] at hge
        simp only [List.length_nil] at hop hge
        omega
      · rw [if_neg hop] at h1
        simp only [List.length_nil] at hop
        have hop0 : op.length = 0 := by omega
        have hopnil : op = [] := List.eq_nil_of_length_eq_zero hop0
        rw [← hopnil]
        exact List.mem_cons_self _ _
  · exact h1

theorem longestOf_ge (ops : List Str) (op : Str) (h : op ∈ ops) :
    op.length ≤ (longestOf ops).length :=
  foldl_longest_ge_mem ops [] op h

theorem stripCrud_eq_of_no_match (op : Str) (h : matchCrud op = none) :
    stripCrud op = op := by
  unfold stripCrud
  rw [h]

theorem baseName_foldl_congr (ops : List Str) :
    ∀ acc : Str, (∀ op ∈ ops, stripCrud op = op) →
      ops.foldl (fun rn op => let nn := stripCrud op;
        if rn.length < nn.length then nn else rn) acc
        = ops.foldl (fun rn op => if rn.length < op.length then op else rn) acc := by
  induction ops with
  | nil => intro acc _; rfl
  | cons op rest ih =>
    intro acc h
    rw [List.foldl_cons, List.foldl_cons]
    have hop := h op (List.mem_cons_self _ _)
    simp only [hop]
    exact ih _ (fun op' h' => h op' (List.mem_cons_of_mem _ h'))

theorem baseName_eq_longestOf (ops : List Str) (h : ∀ op ∈ ops, matchCrud op = none) :
    baseName ops = longestOf ops :=
  baseName_foldl_congr ops [] (fun op hop => stripCrud_eq_of_no_match op (h op hop))

theorem routeOps_eq_nil (ops : List Str) (h : ∀ op ∈ ops, matchCrud op = none) :
    routeOps ops = [] := by
  induction ops with
  | nil => rfl
  | cons op rest ih =>
    unfold routeOps at ih ⊢
    rw [List.filterMap_cons]
    have : crudCanon op = none := by
      unfold crudCanon
      rw [h op (List.mem_cons_self _ _)]
      rfl
    rw [this]
    exact ih (fun op' h' => h op' (List.mem_cons_of_mem _ h'))

/- ### Helper lemmas: empty operation maps -/

theorem processEntryE_nil_ops (p : Str) : processEntryE p [] = .ok [] := by
  rcases lastSeg?_eq_some p with ⟨seg, hs⟩
  unfold processEntryE
  rw [hs]
  simp [routeOps, baseName, hasStr, detailKeys, upperSnake, camelScan]

theorem routeId_nil_ops (p : Str) : routeId p [] = [] := by
  unfold routeId
  rw [processEntryE_nil_ops]

theorem foldl_empty_ops (entries : List Entry) :
    ∀ v0 : Str, (∀ e ∈ entries, e.2 = []) →
      entries.foldl (fun m e => mapSet m (routeId e.1 e.2) e.1) [(([] : Str), v0)]
        = [(([] : Str), (entries.getLast?.map Prod.fst).getD v0)] := by
  induction entries with
  | nil => intro v0 _; rfl
  | cons e rest ih =>
    intro v0 h
    rw [List.foldl_cons]
    have he : e.2 = [] := h e (List.mem_cons_self _ _)
    rw [he, routeId_nil_ops]
    have hm : mapSet [(([] : Str), v0)] [] e.1 = [(([] : Str), e.1)] := by
      simp [mapSet]
    rw [hm, ih e.1 (fun e' he' => h e' (List.mem_cons_of_mem _ he'))]
    cases hr : rest with
    | nil => simp
    | cons a b =>
      rw [getLast?_cons_of_ne_nil e (by simp)]
      cases hy : (a :: b).getLast? with
      | none =>
        have hsome := List.getLast?_isSome.mpr (show (a :: b) ≠ [] from by simp)
        rw [hy] at hsome
        simp at hsome
      | some y => simp [hy]

/- ### Helper lemmas: the reference-rewrite scan -/

theorem rewriteGo_nil (fuel : Nat) : rewriteGo fuel [] = [] := by
  cases fuel <;> rfl

theorem patOpen_length : patOpen.length = 23 := rfl

theorem rewriteGo_congr (f1 : Nat) :
    ∀ (f2 : Nat) (l : Str), l.length ≤ f1 → l.length ≤ f2 →
      rewriteGo f1 l = rewriteGo f2 l := by
  induction f1 with
  | zero =>
    intro f2 l h1 _
    have : l = [] := List.eq_nil_of_length_eq_zero (Nat.le_zero.mp h1)
    subst this
    rw [rewriteGo_nil, rewriteGo_nil]
  | succ f ih =>
    intro f2 l h1 h2
    cases l with
    | nil => rw [rewriteGo_nil, rewriteGo_nil]
    | cons c t =>
      cases f2 with
      | zero => simp at h2
      | succ g =>
        simp only [rewriteGo]
        by_cases hm : refMatches (c :: t) = true
        · rw [if_pos hm, if_pos hm]
          congr 1
          have hlen : ((c :: t).drop (refMatchLen (c :: t))).length
              = (c :: t).length - refMatchLen (c :: t) := List.length_drop _ _
          have h23 : 23 ≤ refMatchLen (c :: t) := by
            unfold refMatchLen
            rw [patOpen_length]
            omega
          apply ih
          · rw [hlen]
            simp only [List.length_cons] at h1 ⊢
            omega
          · rw [hlen]
            simp only [List.length_cons] at h2 ⊢
            omega
        · rw [if_neg hm, if_neg hm]
          congr 1
          apply ih
          · simp only [List.length_cons] at h1
            omega
          · simp only [List.length_cons] at h2
            omega

theorem rewriteGo_succ_of_matches (fuel : Nat) (l : Str) (hl : l ≠ [])
    (hm : refMatches l = true) :
    rewriteGo (fuel + 1) l
      = rewriteTarget ((l.drop patOpen.length).takeWhile isWordChar) ++
        rewriteGo fuel (l.drop (refMatchLen l)) := by
  cases l with
  | nil => exact absurd rfl hl
  | cons c t =>
    simp only [rewriteGo]
    rw [if_pos hm]

theorem isPrefixOf_append_self (l r : List Char) : l.isPrefixOf (l ++ r) = true := by
  induction l with
  | nil => simp [List.isPrefixOf]
  | cons a as ih => simp [List.isPrefixOf, ih]

theorem takeWhile_word_append (X : Str) (r : Str) (hX : ∀ c ∈ X, isWordChar c = true) :
    (X ++ '"' :: r).takeWhile isWordChar = X := by
  induction X with
  | nil =>
    have hq : isWordChar '\"' = false := by decide
    simp [List.takeWhile, hq]
  | cons a as ih =>
    rw [List.cons_append]
    rw [List.takeWhile_cons]
    rw [hX a (List.mem_cons_self _ _)]
    simp only [if_true]
    rw [ih (fun c hc => hX c (List.mem_cons_of_mem _ hc))]

theorem rewriteRefs_pat (X rest : Str) (hX : ∀ c ∈ X, isWordChar c = true)
    (hne : X ≠ []) :
    rewriteRefs (patOpen ++ (X ++ (patClose ++ rest)))
      = rewriteTarget X ++ rewriteRefs rest := by
  have hpc : patClose ++ rest = '"' :: ']' :: rest := rfl
  have hdrop1 : (patOpen ++ (X ++ (patClose ++ rest))).drop patOpen.length
      = X ++ (patClose ++ rest) := List.drop_left _ _
  have htake : (X ++ (patClose ++ rest)).takeWhile isWordChar = X := by
    rw [hpc]
    exact takeWhile_word_append X (']' :: rest) hX
  have hdrop2 : (X ++ (patClose ++ rest)).drop X.length = patClose ++ rest :=
    List.drop_left _ _
  have hmatch : refMatches (patOpen ++ (X ++ (patClose ++ rest))) = true := by
    unfold refMatches
    rw [hdrop1, htake, hdrop2]
    rw [isPrefixOf_append_self patOpen (X ++ (patClose ++ rest))]
    rw [isPrefixOf_append_self patClose rest]
    cases X with
    | nil => exact absurd rfl hne
    | cons a as => rfl
  have hmlen : refMatchLen (patOpen ++ (X ++ (patClose ++ rest)))
      = patOpen.length + X.length + patClose.length := by
    unfold refMatchLen
    rw [hdrop1, htake]
  have hdropAll : (patOpen ++ (X ++ (patClose ++ rest))).drop
      (refMatchLen (patOpen ++ (X ++ (patClose ++ rest)))) = rest := by
    rw [hmlen]
    have hassoc : patOpen ++ (X ++ (patClose ++ rest)) = (patOpen ++ X ++ patClose) ++ rest := by
      simp [List.append_assoc]
    rw [hassoc]
    have hlen3 : (patOpen ++ X ++ patClose).length
        = patOpen.length + X.length + patClose.length := by
      rw [List.length_append, List.length_append]
    rw [← hlen3]
    exact List.drop_left _ _
  have hLlen : (patOpen ++ (X ++ (patClose ++ rest))).length
      = patOpen.length + X.length + patClose.length + rest.length := by
    simp [List.length_append]
    omega
  have hLne : patOpen ++ (X ++ (patClose ++ rest)) ≠ [] := by
    intro hh
    have := congrArg List.length hh
    rw [hLlen] at this
    rw [patOpen_length] at this
    simp at this
  unfold rewriteRefs
  cases hn : (patOpen ++ (X ++ (patClose ++ rest))).length with
  | zero =>
    exact absurd (List.eq_nil_of_length_eq_zero hn) hLne
  | succ n =>
    rw [rewriteGo_succ_of_matches n _ hLne hmatch]
    rw [hdrop1, htake, hdropAll]
    congr 1
    apply rewriteGo_congr
    · rw [hn] at hLlen
      rw [patOpen_length] at hLlen
      omega
    · exact le_refl _

/-- The scan passes unchanged through a prefix inside which no match of the
rewrite regex begins. -/
theorem rewriteGo_through (pre : Str) :
    ∀ (suffix : Str) (fuel : Nat), pre.length + suffix.length ≤ fuel →
      (∀ p < pre.length, patOpen.isPrefixOf ((pre ++ suffix).drop p) = false) →
      rewriteGo fuel (pre ++ suffix) = pre ++ rewriteGo (fuel - pre.length) suffix := by
  induction pre with
  | nil =>
    intro suffix fuel _ _
    simp
  | cons c pre' ih =>
    intro suffix fuel hf hp
    cases fuel with
    | zero =>
      simp only [List.length_cons] at hf
      omega
    | succ f =>
      have h0 : patOpen.isPrefixOf (c :: (pre' ++ suffix)) = false := by
        have := hp 0 (by simp)
        simpa using this
      have hm : refMatches (c :: (pre' ++ suffix)) = false := by
        unfold refMatches
        rw [h0]
        rfl
      simp only [List.cons_append, rewriteGo, List.append_eq, hm, Bool.false_eq_true,
        if_false]
      have hf' : pre'.length + suffix.length ≤ f := by
        simp only [List.length_cons] at hf
        omega
      have hp' : ∀ p < pre'.length, patOpen.isPrefixOf ((pre' ++ suffix).drop p) = false := by
        intro p hplt
        have := hp (p + 1) (by simp only [List.length_cons]; omega)
        rw [List.cons_append, List.drop_succ_cons] at this
        exact this
      rw [ih suffix f hf' hp']
      rw [show f + 1 - (c :: pre').length = f - pre'.length from by
        simp only [List.length_cons]; omega]

/-- `rewriteRefs` passes unchanged through a prefix inside which no match of
the rewrite regex begins. -/
theorem rewriteRefs_through (pre suffix : Str)
    (hp : ∀ p < pre.length, patOpen.isPrefixOf ((pre ++ suffix).drop p) = false) :
    rewriteRefs (pre ++ suffix) = pre ++ rewriteRefs suffix := by
  unfold rewriteRefs
  rw [List.length_append]
  rw [rewriteGo_through pre suffix (pre.length + suffix.length) (le_refl _) hp]
  rw [show pre.length + suffix.length - pre.length = suffix.length from by omega]

/-- Segment-wise action of the rewrite: on a text whose regex matches are
exactly the listed references (with word-character names), every reference is
replaced by its (possibly underscore-suffixed) target name, literal chunks
survive unchanged, and the rewrite continues in the tail. -/
theorem rewriteRefs_assemble (segs : List (Str × Str)) (tail : Str) :
    goodSegs segs tail = true →
      rewriteRefs (assembleRefs segs tail) = rewrittenRefs segs tail := by
  induction segs with
  | nil => intro _; rfl
  | cons s rest ih =>
    intro hg
    obtain ⟨lit, x⟩ := s
    simp only [goodSegs, Bool.and_eq_true] at hg
    obtain ⟨⟨⟨hw, hne⟩, hlit⟩, hrest⟩ := hg
    have hw' : ∀ c ∈ x, isWordChar c = true := by
      rw [List.all_eq_true] at hw
      exact hw
    have hne' : x ≠ [] := by
      intro hh
      rw [hh] at hne
      simp at hne
    have hlit' : ∀ p < lit.length,
        patOpen.isPrefixOf
          ((lit ++ (patOpen ++ (x ++ (patClose ++ assembleRefs rest tail)))).drop p)
          = false := by
      intro p hplt
      rw [List.all_eq_true] at hlit
      have := hlit p (List.mem_range.mpr hplt)
      rw [Bool.not_eq_true'] at this
      exact this
    show rewriteRefs (lit ++ (patOpen ++ (x ++ (patClose ++ assembleRefs rest tail))))
      = lit ++ (rewriteTarget x ++ rewrittenRefs rest tail)
    rw [rewriteRefs_through lit _ hlit']
    rw [rewriteRefs_pat x (assembleRefs rest tail) hw' hne']
    rw [ih hrest]

/- ### Helper lemma: the last entry of a nonempty entry list -/

theorem getLast_fst_cons (e : Entry) (rest : List Entry) :
    ((e :: rest).getLast (List.cons_ne_nil e rest)).1
      = (rest.getLast?.map Prod.fst).getD e.1 := by
  cases rest with
  | nil => simp [List.getLast]
  | cons a b =>
    rw [List.getLast_cons (show (a :: b) ≠ [] from by simp)]
    rw [List.getLast?_eq_getLast (a :: b) (by simp)]
    simp

/- ### Helper lemma: every table pair comes from some Path Entry -/

theorem extractPaths_key_from_entries (entries : List Entry) (kv : Str × Str)
    (h : kv ∈ extractPaths entries) : ∃ e ∈ entries, kv = (routeId e.1 e.2, e.1) := by
  have hraw : kv ∈ extractPathsRaw entries :=
    (sortPairs_perm (extractPathsRaw entries)).subset h
  rcases mem_foldl_mapSet entries [] kv hraw with h1 | h1
  · simp at h1
  · exact h1

/- ### Claims -/

/-- C1, counterexample.  For the Path Entry `"/api/v1/items/"` with operation
keys `listItems` and `createItem` (in that order), the Route Table Builder
produces the identifier `ITEMS_LIST`, not the `ITEM_LIST` the claim states:
stripping yields the candidates "Items" (from `listItems`) and "Item" (from
`createItem`), and the longest candidate "Items" wins.  (The client code
`src/client/src/api.ts` indeed uses `Paths.ITEMS_LIST`.) -/
theorem c1_counterexample :
    extractPaths [("/api/v1/items/".data, ["listItems".data, "createItem".data])]
      = [("ITEMS_LIST".data, "/api/v1/items/".data)]
    ∧ ("ITEMS_LIST".data : Str) ≠ "ITEM_LIST".data := by
  exact ⟨by decide, by decide⟩

/-- C1, amended.  For the Path Entry `"/api/v1/items/"` whose operation map
has exactly the keys `listItems` and `createItem` (in that order), the Route
Table Builder produces the canonical identifier `ITEMS_LIST`: the working
route name is the longest base-name candidate ("Items", of length 5, beats
"Item", of length 4, first-longest-wins), `_list` is appended, and the upper
snake transformation leaves `ITEMS_LIST`. -/
theorem c1_amended :
    stripCrud "listItems".data = "Items".data
    ∧ stripCrud "createItem".data = "Item".data
    ∧ baseName ["listItems".data, "createItem".data] = "Items".data
    ∧ extractPaths [("/api/v1/items/".data, ["listItems".data, "createItem".data])]
      = [("ITEMS_LIST".data, "/api/v1/items/".data)] := by
  exact ⟨by decide, by decide, by decide, by decide⟩

/-- C2, counterexample.  A Path Entry whose operation set contains both
`list` and `retrieve`, and whose final path segment has a placeholder, gets
BOTH suffixes: the code's two `if` statements are independent (not
`if`/`else`), so the identifier is `ITEM_LIST_DETAIL` — refuting the claim
that an entry with `list` "never also" gets `_detail`. -/
theorem c2_counterexample :
    extractPaths [("/api/v1/items/{id}/".data, ["listItem".data, "retrieveItem".data])]
      = [("ITEM_LIST_DETAIL".data, "/api/v1/items/{id}/".data)]
    ∧ hasStr (routeOps ["listItem".data, "retrieveItem".data]) "list".data = true := by
  exact ⟨by decide, by decide⟩

/-- C2, amended.  The `_list` and `_detail` suffixes are appended by two
independent conditions: when the operation set contains `list` AND the final
path segment contains `{` AND the operation set intersects the detail
operations, the working name receives `_list` and then also `_detail`. -/
theorem c2_amended (path : Str) (ops : List Str)
    (hlist : hasStr (routeOps ops) "list".data = true)
    (hseg : hasChar ((lastSeg? path).getD []) '{' = true)
    (hdet : detailKeys.any (fun d => hasStr (routeOps ops) d) = true) :
    processEntryE path ops
      = .ok (upperSnake (baseName ops ++ "_list".data ++ "_detail".data)) := by
  rcases lastSeg?_eq_some path with ⟨seg, hs⟩
  have hseg' : hasChar seg '{' = true := by
    rw [hs] at hseg
    exact hseg
  unfold processEntryE
  rw [hs]
  simp only [hlist, hdet, hseg', if_true, Bool.and_self]

/-- C2, amended, witness at the counterexample input. -/
theorem c2_witness :
    hasStr (routeOps ["listItem".data, "retrieveItem".data]) "list".data = true
    ∧ hasChar ((lastSeg? "/api/v1/items/{id}/".data).getD []) '{' = true
    ∧ detailKeys.any
        (fun d => hasStr (routeOps ["listItem".data, "retrieveItem".data]) d) = true
    ∧ processEntryE "/api/v1/items/{id}/".data ["listItem".data, "retrieveItem".data]
      = .ok (upperSnake (baseName ["listItem".data, "retrieveItem".data]
          ++ "_list".data ++ "_detail".data)) :=
  ⟨by decide, by decide, by decide, c2_amended _ _ (by decide) (by decide) (by decide)⟩

/-- C3, counterexample.  Two distinct Path Entries (`"/b/"` before `"/a/"`,
both with the single operation key `listX`) yield the same identifier
`X_LIST`.  The builder silently overwrites at insertion time (`paths.set`),
keeping the pair of the LAST entry in source encounter order (`"/a/"`) —
whereas the claimed last-sorted-wins tie-break applied after sorting would
keep `"/b/"` (the pair with the larger path sorts later). -/
theorem c3_counterexample :
    extractPaths [("/b/".data, ["listX".data]), ("/a/".data, ["listX".data])]
      = [("X_LIST".data, "/a/".data)]
    ∧ specLastSortedWins [("/b/".data, ["listX".data]), ("/a/".data, ["listX".data])]
      = [("X_LIST".data, "/b/".data)] := by
  exact ⟨by decide, by decide⟩

/-- C3, amended.  When several Path Entries yield the same canonical
identifier, the insertion into the `Map` silently overwrites: for every
identifier, the retained path is that of the last entry in source encounter
order among those yielding the identifier — source order, not any post-sort
tie-break, decides. -/
theorem c3_amended (entries : List Entry) (k : Str) :
    assocFind k (extractPaths entries)
      = (entriesFor k entries).getLast?.map Prod.fst := by
  have hperm := sortPairs_perm (extractPathsRaw entries)
  have hnd := nodup_keys_extractPathsRaw entries
  have hndS : ((extractPaths entries).map Prod.fst).Nodup :=
    ((hperm.map Prod.fst).symm).nodup hnd
  have h1 : assocFind k (extractPaths entries) = assocFind k (extractPathsRaw entries) :=
    assocFind_perm _ _ hperm hndS k
  rw [h1]
  unfold extractPathsRaw
  rw [assocFind_foldl k entries []]
  cases (entriesFor k entries).getLast?.map Prod.fst <;> rfl

/-- C4, counterexample.  Two Path Entries with colliding identifiers produce
a single Route Entry, so the emitted route table can have fewer entries than
the input has Path Entries. -/
theorem c4_counterexample :
    (extractPaths [("/a/".data, ["listX".data]), ("/b/".data, ["listX".data])]).length = 1
    ∧ ([("/a/".data, ["listX".data]), ("/b/".data, ["listX".data])] : List Entry).length
      = 2 := by
  exact ⟨by decide, by decide⟩

/-- C4, amended.  The number of emitted schema declarations always equals
the number of Schema Entries; the number of Route Entries equals the number
of Path Entries provided the entries' canonical identifiers are pairwise
distinct (identifier collisions collapse entries, see C3). -/
theorem c4_amended (props : List SchemaProp) (entries : List Entry)
    (hdist : List.Pairwise
      (fun e1 e2 : Entry => routeId e1.1 e1.2 ≠ routeId e2.1 e2.2) entries) :
    generateTypes ⟨some ⟨some props⟩⟩ = .ok (props.map emitDecl)
    ∧ (props.map emitDecl).length = props.length
    ∧ (extractPaths entries).length = entries.length := by
  refine ⟨rfl, List.length_map _ _, ?_⟩
  unfold extractPaths
  rw [(sortPairs_perm (extractPathsRaw entries)).length_eq]
  unfold extractPathsRaw
  rw [length_foldl_fresh entries [] (by simp) hdist]
  simp

/-- C4, amended, witness on a one-schema unit and two non-colliding
entries. -/
theorem c4_witness :
    List.Pairwise (fun e1 e2 : Entry => routeId e1.1 e1.2 ≠ routeId e2.1 e2.2)
      [("/a/".data, ["listX".data]), ("/b/".data, ["listY".data])]
    ∧ (generateTypes ⟨some ⟨some [⟨"Item".data, false, [], "number".data⟩]⟩⟩
        = .ok ([⟨"Item".data, false, [], "number".data⟩].map emitDecl)
      ∧ ([⟨"Item".data, false, [], "number".data⟩].map emitDecl).length
        = [(⟨"Item".data, false, [], "number".data⟩ : SchemaProp)].length
      ∧ (extractPaths [("/a/".data, ["listX".data]), ("/b/".data, ["listY".data])]).length
        = ([("/a/".data, ["listX".data]), ("/b/".data, ["listY".data])] : List Entry).length) :=
  ⟨by decide, c4_amended _ _ (by decide)⟩

/-- C5, counterexample.  On a Declaration Unit without a `components`
interface, `routeTypesFile.getInterface('components')` is `undefined` and the
immediate `.getProperty('schemas')` throws an unhandled TypeError: the run
crashes instead of reporting a configuration error, refuting "does not crash
(no unhandled exception is raised)". -/
theorem c5_counterexample :
    generateTypes ⟨none⟩ = .error JsError.typeError := by
  exact rfl

/-- C5, amended.  When the parsed Declaration Unit lacks the `components`
interface or its `schemas` property, the Schema Flattener aborts with an
unhandled TypeError (dereference of `undefined`); no configuration-error
report is produced. -/
theorem c5_amended (u : DeclUnit)
    (h : u.components = none ∨ ∃ c, u.components = some c ∧ c.schemas = none) :
    generateTypes u = .error JsError.typeError := by
  rcases h with h | ⟨c, hc, hs⟩
  · unfold generateTypes
    rw [h]
  · unfold generateTypes
    rw [hc]
    show (match c.schemas with
      | none => Except.error JsError.typeError
      | some props => Except.ok (props.map emitDecl)) = Except.error JsError.typeError
    rw [hs]

/-- C5, amended, witness at a unit with `components` present but `schemas`
absent. -/
theorem c5_witness :
    ((⟨some ⟨none⟩⟩ : DeclUnit).components = none
      ∨ ∃ c, (⟨some ⟨none⟩⟩ : DeclUnit).components = some c ∧ c.schemas = none)
    ∧ generateTypes ⟨some ⟨none⟩⟩ = .error JsError.typeError :=
  ⟨Or.inr ⟨⟨none⟩, rfl, rfl⟩, c5_amended ⟨some ⟨none⟩⟩ (Or.inr ⟨⟨none⟩, rfl, rfl⟩)⟩

/-- C6, counterexample.  On the input `"aBC"` the implemented regex
substitution inserts an underscore (the lowercase `a` is followed by
uppercase `B` and the letter `C`, giving `A_BC`), but the claimed boundary
rule inserts none: `B` is not followed by a lowercase letter, and no
uppercase run ends right before a capitalized word (there is no lowercase
letter at all after `a`).  So the substitution does not agree with the
stated boundary rule on every input. -/
theorem c6_counterexample :
    upperSnake "aBC".data = "A_BC".data
    ∧ specSnake "aBC".data = "ABC".data
    ∧ upperSnake "aBC".data ≠ specSnake "aBC".data := by
  exact ⟨by decide, by decide, by decide⟩

/-- C6, amended.  The implemented substitution inserts an underscore exactly
before an uppercase letter that is preceded by a lowercase letter and
followed by another ASCII letter (of either case), or before an uppercase
letter that is preceded by an uppercase letter and followed by a lowercase
letter — and then upper-cases the whole string: the scan-based regex model
agrees with this positional boundary rule on every input string. -/
theorem c6_amended (s : Str) : upperSnake s = boundarySnake s := by
  cases s with
  | nil => rfl
  | cons c l =>
    unfold upperSnake boundarySnake
    rw [camelScan_cons l c]
    simp [insertBefore, boundaryAt]

/-- C7, counterexample.  With the Path Entries `("/p/", {x-b})` and
`("/q/", {xab})` the sorted map keys are `X-B < XAB` (the hyphen, code 45,
sorts below letters), but after the emission-time hyphen replacement the
emitted identifiers appear as `X_B` then `XAB`, and `X_B` is NOT below `XAB`
(the underscore, code 95, sorts above letters): the emitted route table's
entries are not in strict ascending identifier order. -/
theorem c7_counterexample :
    emittedPairs [("/p/".data, ["x-b".data]), ("/q/".data, ["xab".data])]
      = [("X_B".data, "/p/".data), ("XAB".data, "/q/".data)]
    ∧ ltStr "X_B".data "XAB".data = false
    ∧ ¬ List.Chain' (fun a b : Str × Str => ltStr a.1 b.1 = true)
        [("X_B".data, "/p/".data), ("XAB".data, "/q/".data)] := by
  refine ⟨by decide, by decide, ?_⟩
  intro hch
  rcases List.chain'_cons.mp hch with ⟨hr, _⟩
  exact absurd hr (by decide)

/-- C7, amended.  The sorted map's PRE-replacement identifiers appear in
strict ascending order whenever every identifier character sorts above `','`
(true of all ordinary identifiers; the comma is what JavaScript's default
sort comparator inserts between key and value when stringifying an entry
pair); hyphens are replaced by underscores only at emission, after sorting —
so the emitted names themselves can deviate from ascending order (see the
counterexample). -/
theorem c7_amended (entries : List Entry)
    (h : ∀ e ∈ entries, ∀ c ∈ routeId e.1 e.2, ',' < c) :
    List.Chain' (fun a b : Str × Str => ltStr a.1 b.1 = true) (extractPaths entries)
    ∧ emittedPairs entries
      = (extractPaths entries).map (fun kv => (dashToUnderscore kv.1, kv.2)) := by
  refine ⟨?_, rfl⟩
  have hperm := sortPairs_perm (extractPathsRaw entries)
  have hsorted : List.Pairwise pairLe (extractPaths entries) :=
    sortPairs_sorted (extractPathsRaw entries)
  have hndS : ((extractPaths entries).map Prod.fst).Nodup :=
    ((hperm.map Prod.fst).symm).nodup (nodup_keys_extractPathsRaw entries)
  have hne : List.Pairwise (fun a b : Str × Str => a.1 ≠ b.1) (extractPaths entries) :=
    List.pairwise_map.mp hndS
  have hgood : ∀ kv ∈ extractPaths entries, ∀ c ∈ kv.1, ',' < c := by
    intro kv hkv
    rcases extractPaths_key_from_entries entries kv hkv with ⟨e, he, hkv'⟩
    rw [hkv']
    exact h e he
  exact (List.Pairwise.imp_of_mem
    (fun {a b} ha hb hab =>
      leStr_pair_keyLt a.1 b.1 hab.1 hab.2 (hgood a ha) (hgood b hb))
    (hsorted.and hne)).chain'

/-- C7, amended, witness on two entries with ordinary identifiers. -/
theorem c7_witness :
    (∀ e ∈ ([("/a/".data, ["listX".data]), ("/b/".data, ["listY".data])] : List Entry),
      ∀ c ∈ routeId e.1 e.2, ',' < c)
    ∧ (List.Chain' (fun a b : Str × Str => ltStr a.1 b.1 = true)
        (extractPaths [("/a/".data, ["listX".data]), ("/b/".data, ["listY".data])])
      ∧ emittedPairs [("/a/".data, ["listX".data]), ("/b/".data, ["listY".data])]
        = (extractPaths [("/a/".data, ["listX".data]), ("/b/".data, ["listY".data])]).map
            (fun kv => (dashToUnderscore kv.1, kv.2))) :=
  ⟨by decide, c7_amended _ (by decide)⟩

/-- C8.  A Path Entry none of whose operation keys matches the CRUD
alternation still produces exactly one Route Entry and never throws: the
builder returns (no exception) the singleton table whose identifier is the
upper-snake-cased longest raw operation key (first-longest-wins; the key is
one of the entry's operation keys and no key is longer), with no suffix
appended. -/
theorem c8_no_crud_fallback (path : Str) (ops : List Str) (h1 : ops ≠ [])
    (h2 : ∀ op ∈ ops, matchCrud op = none) :
    extractPathsE [(path, ops)] = .ok [(upperSnake (longestOf ops), path)]
    ∧ longestOf ops ∈ ops
    ∧ (∀ op ∈ ops, op.length ≤ (longestOf ops).length) := by
  refine ⟨?_, longestOf_mem ops h1, fun op hop => longestOf_ge ops op hop⟩
  have hro : routeOps ops = [] := routeOps_eq_nil ops h2
  have hPE : processEntryE path ops = .ok (upperSnake (longestOf ops)) := by
    rcases lastSeg?_eq_some path with ⟨seg, hs⟩
    unfold processEntryE
    rw [hs]
    simp only [hro, hasStr, detailKeys, List.any_cons, List.any_nil,
      Bool.or_self, Bool.or_false, Bool.and_false, Bool.false_eq_true, if_false]
    rw [baseName_eq_longestOf ops h2]
  have hid : routeId path ops = upperSnake (longestOf ops) := by
    have hok := processEntryE_ok path ops
    rw [hPE] at hok
    injection hok with hh
    exact hh.symm
  rw [extractPathsE_ok]
  unfold extractPaths extractPathsRaw
  rw [show ([(path, ops)] : List Entry).foldl
      (fun m e => mapSet m (routeId e.1 e.2) e.1) []
      = [(routeId path ops, path)] from rfl]
  rw [hid]
  rfl

/-- C8, witness: two custom action names, no recognized prefix. -/
theorem c8_witness :
    (["fooBarX".data, "doThing".data] : List Str) ≠ []
    ∧ (∀ op ∈ (["fooBarX".data, "doThing".data] : List Str), matchCrud op = none)
    ∧ (extractPathsE [("/misc/".data, ["fooBarX".data, "doThing".data])]
        = .ok [(upperSnake (longestOf ["fooBarX".data, "doThing".data]), "/misc/".data)]
      ∧ longestOf ["fooBarX".data, "doThing".data]
          ∈ (["fooBarX".data, "doThing".data] : List Str)
      ∧ (∀ op ∈ (["fooBarX".data, "doThing".data] : List Str),
          op.length ≤ (longestOf ["fooBarX".data, "doThing".data]).length)) :=
  ⟨by decide, by decide, c8_no_crud_fallback _ _ (by decide) (by decide)⟩

/-- C9, counterexample.  A cross-reference whose target schema name contains
a non-word character (here `A-B`, a legal OpenAPI schema name) does not match
the rewrite regex `\w+` capture and is left verbatim in the original
indirect form in the emitted alias — refuting "every internal
cross-reference ... is rewritten ..., never left in the original indirect
form". -/
theorem c9_counterexample :
    generateTypes ⟨some ⟨some [⟨"Widget".data, false, [],
        "components[\"schemas\"][\"A-B\"]".data⟩]⟩⟩
      = .ok [.typeAlias "Widget".data "components[\"schemas\"][\"A-B\"]".data] := by
  exact (by decide)

/-- C9, amended.  A Schema Entry named by a Reserved-Name Set member is
emitted under its name with a trailing underscore; and in any copied shape —
an alias's type text or a (whitespace-trimmed) interface member's text, of
any entry — every cross-reference `components["schemas"]["X"]` whose target
name is a non-empty run of word characters is rewritten to the (possibly
underscore-suffixed) target declaration name: a text whose regex matches are
exactly the listed references (`goodSegs`) rewrites segment-wise, leaving no
listed reference in the indirect form.  References whose target names
contain non-word characters fall outside the regex and survive verbatim (see
the counterexample). -/
theorem c9_amended (segs : List (Str × Str)) (tail nm nm2 mtail : Str)
    (mems : List Str) (hg : goodSegs segs tail = true) :
    (hasStr builtinNames nm = true → emitName nm = nm ++ ['_'])
    ∧ rewriteRefs (assembleRefs segs tail) = rewrittenRefs segs tail
    ∧ emitDecl ⟨nm2, false, mems, assembleRefs segs tail⟩
      = .typeAlias (emitName nm2) (rewrittenRefs segs tail)
    ∧ (trimStr (assembleRefs segs tail) = assembleRefs segs tail →
        emitDecl ⟨nm2, true, [assembleRefs segs tail], mtail⟩
          = .interfaceDecl (emitName nm2) [rewrittenRefs segs tail]) := by
  have hrw := rewriteRefs_assemble segs tail hg
  refine ⟨fun hb => ?_, hrw, ?_, fun htr => ?_⟩
  · unfold emitName
    rw [if_pos hb]
  · unfold emitDecl
    simp only [Bool.false_eq_true, if_false]
    rw [hrw]
  · unfold emitDecl
    simp only [if_true, List.map_cons, List.map_nil]
    rw [htr, hrw]

/-- C9, amended, witness: the member-like text
`a: components["schemas"]["Item"] | components["schemas"]["Object"][]` of the
non-reserved entry `Widget` — two references, neither at the start, one
targeting the reserved name `Object` — plus the reserved emission name of an
entry itself named `Object`. -/
theorem c9_witness :
    goodSegs [("a: ".data, "Item".data), ((" | ".data : Str), "Object".data)] "[]".data
      = true
    ∧ ((hasStr builtinNames "Object".data = true →
          emitName "Object".data = "Object".data ++ ['_'])
      ∧ rewriteRefs (assembleRefs
            [("a: ".data, "Item".data), (" | ".data, "Object".data)] "[]".data)
          = rewrittenRefs [("a: ".data, "Item".data), (" | ".data, "Object".data)] "[]".data
      ∧ emitDecl ⟨"Widget".data, false, [],
            assembleRefs [("a: ".data, "Item".data), (" | ".data, "Object".data)] "[]".data⟩
          = .typeAlias (emitName "Widget".data)
              (rewrittenRefs [("a: ".data, "Item".data), (" | ".data, "Object".data)] "[]".data)
      ∧ (trimStr (assembleRefs
              [("a: ".data, "Item".data), (" | ".data, "Object".data)] "[]".data)
            = assembleRefs [("a: ".data, "Item".data), (" | ".data, "Object".data)] "[]".data →
          emitDecl ⟨"Widget".data, true,
              [assembleRefs [("a: ".data, "Item".data), (" | ".data, "Object".data)] "[]".data],
              "t".data⟩
            = .interfaceDecl (emitName "Widget".data)
                [rewrittenRefs [("a: ".data, "Item".data), (" | ".data, "Object".data)]
                  "[]".data])) :=
  ⟨by decide,
    c9_amended [("a: ".data, "Item".data), (" | ".data, "Object".data)] "[]".data
      "Object".data "Widget".data "t".data [] (by decide)⟩

/-- C10.  A Path Entry with an empty operation map contributes the empty
identifier: the working name starts empty, no prefix match occurs and no
suffix is appended, so the builder inserts a Route Entry keyed by the empty
string.  When every entry of the input is such, a single empty-keyed entry
survives in the map, carrying the path of the last such entry in source
order. -/
theorem c10_empty_ops (entries : List Entry) (h1 : entries ≠ [])
    (h2 : ∀ e ∈ entries, e.2 = ([] : List Str)) :
    extractPaths entries = [(([] : Str), (entries.getLast h1).1)] := by
  cases entries with
  | nil => exact absurd rfl h1
  | cons e rest =>
    unfold extractPaths extractPathsRaw
    rw [List.foldl_cons]
    have he : e.2 = [] := h2 e (List.mem_cons_self _ _)
    rw [he, routeId_nil_ops]
    rw [show mapSet [] ([] : Str) e.1 = [(([] : Str), e.1)] from rfl]
    rw [foldl_empty_ops rest e.1 (fun e' he' => h2 e' (List.mem_cons_of_mem _ he'))]
    rw [show ∀ x : Str × Str, sortPairs [x] = [x] from fun x => rfl]
    exact congrArg (fun y => [(([] : Str), y)]) (getLast_fst_cons e rest).symm

/-- C10, witness: two entries with empty operation maps; only the last one's
path survives, under the empty identifier. -/
theorem c10_witness :
    ([("/a/".data, ([] : List Str)), ("/b/".data, ([] : List Str))] : List Entry) ≠ []
    ∧ (∀ e ∈ ([("/a/".data, ([] : List Str)), ("/b/".data, ([] : List Str))] : List Entry),
        e.2 = ([] : List Str))
    ∧ extractPaths [("/a/".data, ([] : List Str)), ("/b/".data, ([] : List Str))]
      = [(([] : Str), "/b/".data)] :=
  ⟨by decide, by decide,
    c10_empty_ops [("/a/".data, []), ("/b/".data, [])] (by decide) (by decide)⟩

end TypeLink
